import Mathlib

set_option maxRecDepth 8000

/-!
# Keynest crypto core — shallow embedding and verification

This file embeds the cryptographic core of the Keynest password manager
(`packages/crypto/src/*.ts`) in Lean 4 and proves the spec's testable
properties about it.

Modelling conventions:
* Byte values are `Nat` constrained to `< 256` by hypotheses where it matters.
* Byte buffers (`Uint8Array`) are `List Nat`; JS strings are `List Char`
  or `String` as convenient.
* Platform primitives (WebCrypto AES-GCM, ECDH, HKDF, SHA-1 digest, the
  argon2 hash, `TextEncoder`/`TextDecoder`) are not code of this repository:
  they enter as explicit function parameters, with their documented
  contracts as hypotheses, or (for ECDH) as a standard mathematical model.
  Everything the repository itself computes — the base64url codec, the
  versioned wire format, parsing and error dispatch, the password
  generator, the breach-check request, the subkey-derivation structure —
  is translated directly from the source.
-/

/-- Error taxonomy of the spec (§7), matching the throw sites of the code:
`versionError` is the `Unsupported ciphertext version` throw in
`decryptItem`, `authenticationError` is the AES-GCM `OperationError` on tag
mismatch, `configError` is the empty-charset throw in `generatePassword`
and invalid-KDF-parameter rejection, `formatError` covers malformed
base64 / too-short buffers (JS `InvalidCharacterError` / `RangeError`). -/
inductive CryptoError where
  | configError
  | authenticationError
  | versionError
  | formatError
deriving DecidableEq, Repr

/-! ## base64url helpers (vault-crypto.ts, `toBase64Url` / `fromBase64Url`)

`btoa` / `atob` are the standard base64 codec of the platform; they are
modelled here by their universal definition (RFC 4648 §4 with `=`
padding), and the repository's URL-safe character replacement and padding
stripping / restoration are translated from the source. -/

/-- The standard base64 alphabet used by `btoa`/`atob`. -/
def base64Alphabet : List Char :=
  "ABCDEFGHIJKLMNOPQRSTUVWXYZabcdefghijklmnopqrstuvwxyz0123456789+/".data

/-- Character of the base64 alphabet at index `n` (`n < 64` in all uses). -/
def b64Char (n : Nat) : Char := base64Alphabet.getD n '?'

/-- Index of a base64 character, `none` for a character outside the
alphabet (JS `atob` throws `InvalidCharacterError` there). -/
def b64Index (c : Char) : Option Nat :=
  let i := base64Alphabet.indexOf c
  if i < 64 then some i else none

/-- The non-padding characters of `btoa`: each 3-byte group becomes 4
characters; a trailing 1- or 2-byte group becomes 2 or 3 characters. -/
def b64EncodeCore : List Nat → List Char
  | [] => []
  | [b0] => [b64Char (b0 / 4), b64Char (b0 % 4 * 16)]
  | [b0, b1] => [b64Char (b0 / 4), b64Char (b0 % 4 * 16 + b1 / 16), b64Char (b1 % 16 * 4)]
  | b0 :: b1 :: b2 :: rest =>
      b64Char (b0 / 4) :: b64Char (b0 % 4 * 16 + b1 / 16) ::
      b64Char (b1 % 16 * 4 + b2 / 64) :: b64Char (b2 % 64) :: b64EncodeCore rest

/-- The `=` padding `btoa` appends for an input of `n` bytes. -/
def b64Pad (n : Nat) : List Char :=
  if n % 3 = 1 then ['=', '='] else if n % 3 = 2 then ['='] else []

/-- `btoa` on a byte buffer (the source first turns the bytes into a
binary string with `String.fromCharCode`; we keep them as bytes). -/
def btoa (bytes : List Nat) : List Char :=
  b64EncodeCore bytes ++ b64Pad bytes.length

/-- `atob`: decode groups of 4 base64 characters, accepting `==` / `=`
padding only at the end; `none` models the `InvalidCharacterError` throw. -/
def atob : List Char → Option (List Nat)
  | [] => some []
  | c0 :: c1 :: c2 :: c3 :: rest =>
      if c2 = '=' ∧ c3 = '=' ∧ rest = [] then
        match b64Index c0, b64Index c1 with
        | some s0, some s1 => some [s0 * 4 + s1 / 16]
        | _, _ => none
      else if c3 = '=' ∧ rest = [] then
        match b64Index c0, b64Index c1, b64Index c2 with
        | some s0, some s1, some s2 => some [s0 * 4 + s1 / 16, s1 % 16 * 16 + s2 / 4]
        | _, _, _ => none
      else
        match b64Index c0, b64Index c1, b64Index c2, b64Index c3, atob rest with
        | some s0, some s1, some s2, some s3, some tail =>
            some ((s0 * 4 + s1 / 16) :: (s1 % 16 * 16 + s2 / 4) :: (s2 % 4 * 64 + s3) :: tail)
        | _, _, _, _, _ => none
  | _ => none

/-- The replace step of `toBase64Url`: maps the char plus to minus and
slash to underscore, leaving every other character unchanged. -/
def urlSafeChar (c : Char) : Char :=
  if c = '+' then '-' else if c = '/' then '_' else c

/-- The replace step of `fromBase64Url`: maps minus back to plus and
underscore back to slash. -/
def urlUnsafeChar (c : Char) : Char :=
  if c = '-' then '+' else if c = '_' then '/' else c

/-- `toBase64Url` (vault-crypto.ts:84-90): standard base64, URL-safe
character replacement, and `=` padding stripped. -/
def toBase64Url (bytes : List Nat) : List Char :=
  ((btoa bytes).map urlSafeChar).filter (fun c => c ≠ '=')

/-- `fromBase64Url` (vault-crypto.ts:92-101): undo the URL-safe
replacement, restore the stripped `=` padding up to a multiple of 4, then
`atob`. -/
def fromBase64Url (s : List Char) : Option (List Nat) :=
  let base64 := s.map urlUnsafeChar
  let padded := base64 ++ List.replicate ((4 - base64.length % 4) % 4) '='
  atob padded

example : toBase64Url [104, 101, 108, 108, 111] = "aGVsbG8".data := by decide
example : fromBase64Url "aGVsbG8".data = some [104, 101, 108, 108, 111] := by decide
example : fromBase64Url (toBase64Url [0, 255, 17]) = some [0, 255, 17] := by decide
example : fromBase64Url (toBase64Url [0, 255, 17, 3]) = some [0, 255, 17, 3] := by decide
example : fromBase64Url (toBase64Url [251, 239]) = some [251, 239] := by decide

/-! ### Round trip of the base64url codec -/

lemma b64Index_b64Char : ∀ n, n < 64 → b64Index (b64Char n) = some n := by decide

lemma b64Char_ne_pad : ∀ n, n < 64 → b64Char n ≠ '=' := by decide

lemma urlRoundChar : ∀ n, n < 64 → urlUnsafeChar (urlSafeChar (b64Char n)) = b64Char n := by
  decide

lemma urlSafeChar_b64_ne_pad : ∀ n, n < 64 → urlSafeChar (b64Char n) ≠ '=' := by decide

lemma b64EncodeCore_length (l : List Nat) :
    (b64EncodeCore l).length =
      4 * (l.length / 3) +
        (if l.length % 3 = 0 then 0 else if l.length % 3 = 1 then 2 else 3) := by
  induction l using b64EncodeCore.induct with
  | case1 => simp [b64EncodeCore]
  | case2 b0 => simp [b64EncodeCore]
  | case3 b0 b1 => simp [b64EncodeCore]
  | case4 b0 b1 b2 rest ih =>
    simp only [b64EncodeCore, List.length_cons]
    rw [ih]
    have h3 : (rest.length + 1 + 1 + 1) % 3 = rest.length % 3 := by omega
    have h4 : (rest.length + 1 + 1 + 1) / 3 = rest.length / 3 + 1 := by omega
    have hm : rest.length % 3 = 0 ∨ rest.length % 3 = 1 ∨ rest.length % 3 = 2 := by omega
    rcases hm with h | h | h <;> simp only [h3, h4, h, reduceIte] <;> omega

lemma b64EncodeCore_mem (l : List Nat) (hb : ∀ b ∈ l, b < 256) :
    ∀ c ∈ b64EncodeCore l, ∃ n, n < 64 ∧ c = b64Char n := by
  induction l using b64EncodeCore.induct with
  | case1 => simp [b64EncodeCore]
  | case2 b0 =>
    have h0 := hb b0 (by simp)
    intro c hc
    simp only [b64EncodeCore, List.mem_cons, List.not_mem_nil, or_false] at hc
    rcases hc with h | h
    · exact ⟨b0 / 4, by omega, h⟩
    · exact ⟨b0 % 4 * 16, by omega, h⟩
  | case3 b0 b1 =>
    have h0 := hb b0 (by simp)
    have h1 := hb b1 (by simp)
    intro c hc
    simp only [b64EncodeCore, List.mem_cons, List.not_mem_nil, or_false] at hc
    rcases hc with h | h | h
    · exact ⟨b0 / 4, by omega, h⟩
    · exact ⟨b0 % 4 * 16 + b1 / 16, by omega, h⟩
    · exact ⟨b1 % 16 * 4, by omega, h⟩
  | case4 b0 b1 b2 rest ih =>
    have h0 := hb b0 (by simp)
    have h1 := hb b1 (by simp)
    have h2 := hb b2 (by simp)
    intro c hc
    simp only [b64EncodeCore, List.mem_cons] at hc
    rcases hc with h | h | h | h | h
    · exact ⟨b0 / 4, by omega, h⟩
    · exact ⟨b0 % 4 * 16 + b1 / 16, by omega, h⟩
    · exact ⟨b1 % 16 * 4 + b2 / 64, by omega, h⟩
    · exact ⟨b2 % 64, by omega, h⟩
    · exact ih (fun b hb' => hb b (by simp [hb'])) c h

lemma toBase64Url_eq_core (l : List Nat) (hb : ∀ b ∈ l, b < 256) :
    toBase64Url l = (b64EncodeCore l).map urlSafeChar := by
  unfold toBase64Url btoa
  rw [List.map_append, List.filter_append]
  have hpad : (List.map urlSafeChar (b64Pad l.length)).filter (fun c => c ≠ '=') = [] := by
    unfold b64Pad
    split <;> [rfl; split <;> rfl]
  have hcore : ((b64EncodeCore l).map urlSafeChar).filter (fun c => c ≠ '=') =
      (b64EncodeCore l).map urlSafeChar := by
    apply List.filter_eq_self.2
    intro c hc
    simp only [List.mem_map] at hc
    obtain ⟨a, ha, rfl⟩ := hc
    obtain ⟨n, hn, rfl⟩ := b64EncodeCore_mem l hb a ha
    simpa using urlSafeChar_b64_ne_pad n hn
  rw [hpad, hcore, List.append_nil]

lemma toBase64Url_unmap (l : List Nat) (hb : ∀ b ∈ l, b < 256) :
    (toBase64Url l).map urlUnsafeChar = b64EncodeCore l := by
  rw [toBase64Url_eq_core l hb, List.map_map]
  have : ∀ c ∈ b64EncodeCore l, (urlUnsafeChar ∘ urlSafeChar) c = id c := by
    intro c hc
    obtain ⟨n, hn, rfl⟩ := b64EncodeCore_mem l hb c hc
    simpa using urlRoundChar n hn
  rw [List.map_congr_left this, List.map_id]

lemma replicate_pad_eq (l : List Nat) :
    List.replicate ((4 - (b64EncodeCore l).length % 4) % 4) '=' = b64Pad l.length := by
  have hlen := b64EncodeCore_length l
  unfold b64Pad
  have h3 : l.length % 3 = 0 ∨ l.length % 3 = 1 ∨ l.length % 3 = 2 := by omega
  rcases h3 with h | h | h <;>
    rw [h] at hlen <;> norm_num at hlen <;> simp only [h, reduceIte]
  · have h4 : (b64EncodeCore l).length % 4 = 0 := by omega
    rw [h4]; decide
  · have h4 : (b64EncodeCore l).length % 4 = 2 := by omega
    rw [h4]; decide
  · have h4 : (b64EncodeCore l).length % 4 = 3 := by omega
    rw [h4]; decide

lemma atob_b64EncodeCore (l : List Nat) (hb : ∀ b ∈ l, b < 256) :
    atob (b64EncodeCore l ++ b64Pad l.length) = some l := by
  induction l using b64EncodeCore.induct with
  | case1 => rfl
  | case2 b0 =>
    have h0 := hb b0 (by simp)
    have hi0 := b64Index_b64Char (b0 / 4) (by omega)
    have hi1 := b64Index_b64Char (b0 % 4 * 16) (by omega)
    simp only [b64EncodeCore, b64Pad, List.length_cons, List.length_nil]
    norm_num
    simp only [atob, hi0, hi1]
    norm_num
    omega
  | case3 b0 b1 =>
    have h0 := hb b0 (by simp)
    have h1 := hb b1 (by simp)
    have hi0 := b64Index_b64Char (b0 / 4) (by omega)
    have hi1 := b64Index_b64Char (b0 % 4 * 16 + b1 / 16) (by omega)
    have hi2 := b64Index_b64Char (b1 % 16 * 4) (by omega)
    have hc2 := b64Char_ne_pad (b1 % 16 * 4) (by omega)
    simp only [b64EncodeCore, b64Pad, List.length_cons, List.length_nil]
    norm_num
    simp only [atob, hi0, hi1, hi2, hc2]
    norm_num
    constructor <;> omega
  | case4 b0 b1 b2 rest ih =>
    have h0 := hb b0 (by simp)
    have h1 := hb b1 (by simp)
    have h2 := hb b2 (by simp)
    have hi0 := b64Index_b64Char (b0 / 4) (by omega)
    have hi1 := b64Index_b64Char (b0 % 4 * 16 + b1 / 16) (by omega)
    have hi2 := b64Index_b64Char (b1 % 16 * 4 + b2 / 64) (by omega)
    have hi3 := b64Index_b64Char (b2 % 64) (by omega)
    have hc2 := b64Char_ne_pad (b1 % 16 * 4 + b2 / 64) (by omega)
    have hc3 := b64Char_ne_pad (b2 % 64) (by omega)
    have hrest := ih (fun b hb' => hb b (by simp [hb']))
    have hpadlen : (b0 :: b1 :: b2 :: rest).length % 3 = rest.length % 3 := by
      simp only [List.length_cons]; omega
    have hpad : b64Pad (b0 :: b1 :: b2 :: rest).length = b64Pad rest.length := by
      unfold b64Pad; rw [hpadlen]
    simp only [b64EncodeCore, hpad, List.cons_append]
    simp only [atob, hi0, hi1, hi2, hi3, hc2, hc3, hrest]
    norm_num
    refine ⟨by omega, by omega, by omega⟩

/-- Key round-trip helper: decoding an encoded byte buffer restores it
exactly, including the stripped padding. -/
lemma fromBase64Url_toBase64Url (l : List Nat) (hb : ∀ b ∈ l, b < 256) :
    fromBase64Url (toBase64Url l) = some l := by
  unfold fromBase64Url
  rw [toBase64Url_unmap l hb]
  show atob (b64EncodeCore l ++
      List.replicate ((4 - (b64EncodeCore l).length % 4) % 4) '=') = some l
  rw [replicate_pad_eq l]
  exact atob_b64EncodeCore l hb

/-! ## Envelope cipher (vault-crypto.ts, `encryptItem` / `decryptItem`)

AES-256-GCM itself is the WebCrypto primitive `crypto.subtle.encrypt` /
`crypto.subtle.decrypt`; it enters as the abstract parameters
`aeadEncrypt : key → iv → plaintext → ciphertext‖tag` and
`aeadDecrypt : key → iv → ciphertext‖tag → Option plaintext` (where `none`
is the `OperationError` on tag-verification failure). The fresh random IV
drawn by `crypto.getRandomValues` is an explicit parameter, and
`TextEncoder` / `TextDecoder` enter as `textEncode` / `textDecode`. -/

def VERSION : Nat := 1
def IV_LENGTH : Nat := 12

structure EncryptedBlob where
  ciphertext : List Char
  version : Nat
deriving DecidableEq, Repr

/-- The packing step of `encryptItem` (vault-crypto.ts:39-44):
`setUint16(0, VERSION, false)` writes the two big-endian bytes of the
version, then the 12-byte IV at offset 2, then the ciphertext‖tag. -/
def packBlob (iv ct : List Nat) : List Nat :=
  [VERSION / 256 % 256, VERSION % 256] ++ iv ++ ct

/-- `encryptItem` (vault-crypto.ts:26-50). -/
def encryptItem (textEncode : String → List Nat)
    (aeadEncrypt : List Nat → List Nat → List Nat → List Nat)
    (plaintext : String) (encryptionKey : List Nat) (iv : List Nat) :
    EncryptedBlob :=
  let ct := aeadEncrypt encryptionKey iv (textEncode plaintext)
  { ciphertext := toBase64Url (packBlob iv ct), version := VERSION }

/-- `decryptItem` (vault-crypto.ts:56-78): decode base64url, read the
big-endian 16-bit version at offset 0 and refuse anything but `VERSION`,
slice out IV (bytes 2..14) and ciphertext (bytes 14..), then AEAD-decrypt;
tag failure surfaces as `authenticationError`. -/
def decryptItem (textDecode : List Nat → String)
    (aeadDecrypt : List Nat → List Nat → List Nat → Option (List Nat))
    (blob : EncryptedBlob) (encryptionKey : List Nat) :
    Except CryptoError String :=
  match fromBase64Url blob.ciphertext with
  | none => .error .formatError
  | some packed =>
    if packed.length < 2 then .error .formatError
    else
      let version := packed.getD 0 0 * 256 + packed.getD 1 0
      if version ≠ VERSION then .error .versionError
      else
        let iv := (packed.drop 2).take IV_LENGTH
        let ciphertext := packed.drop (2 + IV_LENGTH)
        match aeadDecrypt encryptionKey iv ciphertext with
        | none => .error .authenticationError
        | some pt => .ok (textDecode pt)

/-! ### Computation lemmas for `decryptItem` -/

lemma packBlob_eq (iv ct : List Nat) : packBlob iv ct = [0, 1] ++ iv ++ ct := rfl

lemma packBlob_bounds (iv ct : List Nat) (hbiv : ∀ b ∈ iv, b < 256)
    (hbct : ∀ b ∈ ct, b < 256) : ∀ b ∈ packBlob iv ct, b < 256 := by
  intro b hbm
  rw [packBlob_eq] at hbm
  simp only [List.mem_append, List.mem_cons, List.not_mem_nil, or_false] at hbm
  rcases hbm with ((rfl | rfl) | h) | h
  · omega
  · omega
  · exact hbiv b h
  · exact hbct b h

lemma packBlob_slice_iv (iv ct : List Nat) (hiv : iv.length = 12) :
    ((packBlob iv ct).drop 2).take IV_LENGTH = iv := by
  have h1 : (packBlob iv ct).drop 2 = iv ++ ct := by
    rw [packBlob_eq]
    exact List.drop_left' (show ([0, 1] : List Nat).length = 2 from rfl)
  rw [h1]
  exact List.take_left' (by rw [hiv]; rfl)

lemma packBlob_slice_ct (iv ct : List Nat) (hiv : iv.length = 12) :
    (packBlob iv ct).drop (2 + IV_LENGTH) = ct := by
  rw [packBlob_eq]
  show List.drop (2 + IV_LENGTH) (([0, 1] ++ iv) ++ ct) = ct
  exact List.drop_left' (by simp [hiv, IV_LENGTH])

/-- `decryptItem` on a well-formed base64url blob: the base64url decode
succeeds and the parsing proceeds on the packed bytes. -/
lemma decryptItem_toBase64Url (textDecode : List Nat → String)
    (aeadDecrypt : List Nat → List Nat → List Nat → Option (List Nat))
    (key packed : List Nat) (hb : ∀ b ∈ packed, b < 256)
    (h2 : 2 ≤ packed.length) :
    decryptItem textDecode aeadDecrypt ⟨toBase64Url packed, VERSION⟩ key =
      if packed.getD 0 0 * 256 + packed.getD 1 0 ≠ VERSION then
        .error .versionError
      else
        match aeadDecrypt key ((packed.drop 2).take IV_LENGTH)
            (packed.drop (2 + IV_LENGTH)) with
        | none => .error .authenticationError
        | some pt => .ok (textDecode pt) := by
  unfold decryptItem
  rw [fromBase64Url_toBase64Url packed hb]
  have hlt : ¬(packed.length < 2) := by omega
  simp only [hlt, if_false]

/-- `decryptItem` run on an untampered `packBlob` under the version in
force: parses version 1, recovers the IV and ciphertext slices, and
resolves on the AEAD verdict. -/
lemma decryptItem_packBlob (textDecode : List Nat → String)
    (aeadDecrypt : List Nat → List Nat → List Nat → Option (List Nat))
    (key iv ct : List Nat) (hiv : iv.length = 12)
    (hbiv : ∀ b ∈ iv, b < 256) (hbct : ∀ b ∈ ct, b < 256) :
    decryptItem textDecode aeadDecrypt ⟨toBase64Url (packBlob iv ct), VERSION⟩ key =
      match aeadDecrypt key iv ct with
      | none => .error .authenticationError
      | some pt => .ok (textDecode pt) := by
  have h2 : 2 ≤ (packBlob iv ct).length := by
    rw [packBlob_eq]
    simp only [List.length_append, List.length_cons, List.length_nil]
    omega
  rw [decryptItem_toBase64Url textDecode aeadDecrypt key (packBlob iv ct)
    (packBlob_bounds iv ct hbiv hbct) h2]
  have hv : (packBlob iv ct).getD 0 0 * 256 + (packBlob iv ct).getD 1 0 = VERSION := by
    rw [packBlob_eq]; rfl
  rw [if_neg (by rw [hv]; exact fun h => h rfl)]
  rw [packBlob_slice_iv iv ct hiv, packBlob_slice_ct iv ct hiv]

/-- Demo text codec for concrete witnesses (stand-in for
`TextEncoder` / `TextDecoder`; round-trips on the concrete inputs used). -/
def demoEncode (s : String) : List Nat := s.data.map Char.toNat

def demoDecode (l : List Nat) : String := String.mk (l.map Char.ofNat)

/-- Demo AEAD for concrete witnesses: appends a 16-byte marker tag. -/
def demoAeadEncrypt (key iv pt : List Nat) : List Nat :=
  pt ++ (List.range 16).map (fun i => (key.sum + iv.sum + i) % 256)

/-- Demo AEAD decryption: checks the marker tag, strips it. -/
def demoAeadDecrypt (key iv ct : List Nat) : Option (List Nat) :=
  let pt := ct.take (ct.length - 16)
  if ct = pt ++ (List.range 16).map (fun i => (key.sum + iv.sum + i) % 256) then
    some pt
  else none

example :
    decryptItem demoDecode demoAeadDecrypt
      (encryptItem demoEncode demoAeadEncrypt "hi" [1, 2] (List.range 12)) [1, 2] =
    .ok "hi" := by rfl

/-! ## Claim theorems for the envelope cipher and base64url codec -/

/-- C10: for every byte array `b`, `fromBase64Url (toBase64Url b)` returns
a byte array equal to `b`: the unpadded URL-safe base64 helpers used for
all blobs and exported keys form an exact round trip, including
restoration of the stripped padding. -/
theorem base64url_roundTrip (b : List Nat) (hb : ∀ x ∈ b, x < 256) :
    fromBase64Url (toBase64Url b) = some b :=
  fromBase64Url_toBase64Url b hb

/-- Witness for C10 at a concrete byte array. -/
theorem base64url_roundTrip_witness :
    (∀ x ∈ [0, 255, 7, 128, 61], x < 256) ∧
      fromBase64Url (toBase64Url [0, 255, 7, 128, 61]) = some [0, 255, 7, 128, 61] :=
  ⟨by decide, base64url_roundTrip [0, 255, 7, 128, 61] (by decide)⟩

/-- C1: for every plaintext string `P` and every key `K`, decrypting the
blob produced by `encryptItem P K` with the same key via `decryptItem`
returns exactly `P`. The AEAD and the text codec are the platform
primitives, assumed to satisfy their round-trip contracts at the
arguments in play; the IV is the fresh 12-byte random draw. -/
theorem encrypt_decrypt_roundTrip
    (textEncode : String → List Nat) (textDecode : List Nat → String)
    (aeadEncrypt : List Nat → List Nat → List Nat → List Nat)
    (aeadDecrypt : List Nat → List Nat → List Nat → Option (List Nat))
    (P : String) (key iv : List Nat)
    (hiv : iv.length = 12) (hbiv : ∀ b ∈ iv, b < 256)
    (hbct : ∀ b ∈ aeadEncrypt key iv (textEncode P), b < 256)
    (haead : aeadDecrypt key iv (aeadEncrypt key iv (textEncode P)) =
      some (textEncode P))
    (hcodec : textDecode (textEncode P) = P) :
    decryptItem textDecode aeadDecrypt
      (encryptItem textEncode aeadEncrypt P key iv) key = .ok P := by
  show decryptItem textDecode aeadDecrypt
    ⟨toBase64Url (packBlob iv (aeadEncrypt key iv (textEncode P))), VERSION⟩ key = .ok P
  rw [decryptItem_packBlob textDecode aeadDecrypt key iv
    (aeadEncrypt key iv (textEncode P)) hiv hbiv hbct, haead]
  show Except.ok (textDecode (textEncode P)) = Except.ok P
  rw [hcodec]

/-- Witness for C1: a concrete AEAD and codec, plaintext `"hello"`. -/
theorem encrypt_decrypt_roundTrip_witness :
    demoDecode (demoEncode "hello") = "hello" ∧
    decryptItem demoDecode demoAeadDecrypt
      (encryptItem demoEncode demoAeadEncrypt "hello" [1, 2] (List.range 12))
      [1, 2] = .ok "hello" :=
  ⟨by decide,
    encrypt_decrypt_roundTrip demoEncode demoDecode demoAeadEncrypt demoAeadDecrypt
      "hello" [1, 2] (List.range 12) (by decide) (by decide) (by decide)
      (by decide) (by decide)⟩

/-- C3: a blob whose decoded packed bytes begin with a big-endian 16-bit
version value different from 1 fails with `VersionError` for every AEAD
decryption function — so no AEAD decryption is attempted or consulted —
and for every key, even when the IV and ciphertext portion are otherwise
well-formed. -/
theorem decryptItem_unsupportedVersion
    (textDecode : List Nat → String)
    (aeadDecrypt : List Nat → List Nat → List Nat → Option (List Nat))
    (blob : EncryptedBlob) (key packed : List Nat)
    (hdec : fromBase64Url blob.ciphertext = some packed)
    (h2 : 2 ≤ packed.length)
    (hv : packed.getD 0 0 * 256 + packed.getD 1 0 ≠ VERSION) :
    decryptItem textDecode aeadDecrypt blob key = .error .versionError := by
  unfold decryptItem
  rw [hdec]
  have hlt : ¬(packed.length < 2) := by omega
  simp only [hlt, if_false]
  rw [if_pos hv]

/-- Witness for C3: a well-formed packed buffer carrying version 2, an
AEAD that would happily decrypt — `VersionError` regardless. -/
theorem decryptItem_unsupportedVersion_witness :
    fromBase64Url (toBase64Url ([0, 2] ++ List.range 12 ++ List.replicate 16 9)) =
        some ([0, 2] ++ List.range 12 ++ List.replicate 16 9) ∧
    decryptItem demoDecode (fun _ _ _ => some [104])
      ⟨toBase64Url ([0, 2] ++ List.range 12 ++ List.replicate 16 9), 1⟩ [1, 2] =
      .error .versionError :=
  ⟨by decide,
    decryptItem_unsupportedVersion demoDecode (fun _ _ _ => some [104])
      ⟨toBase64Url ([0, 2] ++ List.range 12 ++ List.replicate 16 9), 1⟩ [1, 2]
      ([0, 2] ++ List.range 12 ++ List.replicate 16 9)
      (by decide) (by decide) (by decide)⟩

lemma urlSafeChar_b64_notin : ∀ n, n < 64 →
    urlSafeChar (b64Char n) ≠ '=' ∧ urlSafeChar (b64Char n) ≠ '+' ∧
      urlSafeChar (b64Char n) ≠ '/' := by decide

lemma toBase64Url_chars (l : List Nat) (hb : ∀ b ∈ l, b < 256) :
    ∀ c ∈ toBase64Url l, c ≠ '=' ∧ c ≠ '+' ∧ c ≠ '/' := by
  intro c hc
  rw [toBase64Url_eq_core l hb] at hc
  simp only [List.mem_map] at hc
  obtain ⟨a, ha, rfl⟩ := hc
  obtain ⟨n, hn, rfl⟩ := b64EncodeCore_mem l hb a ha
  exact urlSafeChar_b64_notin n hn

/-- C6: the ciphertext string of `encryptItem P K` is exactly the
unpadded URL-safe base64 encoding of
`big-endian-16-bit version 1 ‖ 12-byte IV ‖ AEAD ciphertext‖tag`:
its decode recovers that very concatenation, whose length is
`2 + 12 + (plaintext length + 16)` when the AEAD appends a 16-byte tag,
and the encoding uses no padding and no `+` or `/` characters. -/
theorem encryptItem_wireFormat
    (textEncode : String → List Nat)
    (aeadEncrypt : List Nat → List Nat → List Nat → List Nat)
    (P : String) (key iv : List Nat)
    (hiv : iv.length = 12)
    (hbiv : ∀ b ∈ iv, b < 256)
    (hbct : ∀ b ∈ aeadEncrypt key iv (textEncode P), b < 256)
    (htag : (aeadEncrypt key iv (textEncode P)).length = (textEncode P).length + 16) :
    (encryptItem textEncode aeadEncrypt P key iv).ciphertext =
        toBase64Url ([0, 1] ++ iv ++ aeadEncrypt key iv (textEncode P)) ∧
    fromBase64Url (encryptItem textEncode aeadEncrypt P key iv).ciphertext =
        some ([0, 1] ++ iv ++ aeadEncrypt key iv (textEncode P)) ∧
    ([0, 1] ++ iv ++ aeadEncrypt key iv (textEncode P)).length =
        2 + 12 + ((textEncode P).length + 16) ∧
    (∀ c ∈ (encryptItem textEncode aeadEncrypt P key iv).ciphertext,
        c ≠ '=' ∧ c ≠ '+' ∧ c ≠ '/') ∧
    (encryptItem textEncode aeadEncrypt P key iv).version = VERSION := by
  have hball : ∀ b ∈ [0, 1] ++ iv ++ aeadEncrypt key iv (textEncode P), b < 256 := by
    rw [← packBlob_eq]
    exact packBlob_bounds iv (aeadEncrypt key iv (textEncode P)) hbiv hbct
  refine ⟨rfl, ?_, ?_, ?_, rfl⟩
  · show fromBase64Url (toBase64Url ([0, 1] ++ iv ++ aeadEncrypt key iv (textEncode P))) = _
    exact fromBase64Url_toBase64Url _ hball
  · simp only [List.length_append, List.length_cons, List.length_nil, hiv, htag]
  · intro c hc
    exact toBase64Url_chars _ hball c hc

/-! ### C2: single-bit tampering

`flipBit l i j` flips bit `j` of byte `i` of a byte buffer — the
spec's model of an attacker corrupting one bit of the decoded blob. -/

def flipBit (l : List Nat) (i j : Nat) : List Nat :=
  l.set i (l.getD i 0 ^^^ 2 ^ j)

lemma xor_pow_ne (b j : Nat) : b ^^^ 2 ^ j ≠ b := by
  intro h
  have h1 : b ^^^ (b ^^^ 2 ^ j) = b ^^^ b := congrArg (b ^^^ ·) h
  rw [← Nat.xor_assoc, Nat.xor_self, Nat.zero_xor] at h1
  have h2 := Nat.two_pow_pos j
  omega

lemma flipBit_bounds (l : List Nat) (hb : ∀ b ∈ l, b < 256) (i j : Nat)
    (hj : j < 8) : ∀ b ∈ flipBit l i j, b < 256 := by
  intro b hbm
  rcases List.mem_or_eq_of_mem_set hbm with h | rfl
  · exact hb b h
  · have h1 : l.getD i 0 < 256 := by
      by_cases hi : i < l.length
      · rw [List.getD_eq_getElem l 0 hi]
        exact hb _ (List.getElem_mem hi)
      · rw [List.getD_eq_default l 0 (by omega)]
        omega
    have h2 : (2 : Nat) ^ j < 2 ^ 8 := Nat.pow_lt_pow_right (by norm_num) hj
    have h4 : (2 : Nat) ^ 8 = 256 := by norm_num
    have h1' : l.getD i 0 < 2 ^ 8 := by omega
    have h3 : l.getD i 0 ^^^ 2 ^ j < 2 ^ 8 := Nat.xor_lt_two_pow h1' h2
    omega

lemma getD_take_of_lt (l : List Nat) (n m d : Nat) (h : m < n) :
    (l.take n).getD m d = l.getD m d := by
  rw [List.getD_eq_getElem?_getD, List.getD_eq_getElem?_getD,
    List.getElem?_take_of_lt h]

lemma getD_drop' (l : List Nat) (n m d : Nat) :
    (l.drop n).getD m d = l.getD (n + m) d := by
  rw [List.getD_eq_getElem?_getD, List.getD_eq_getElem?_getD, List.getElem?_drop]

lemma getD_set_self (l : List Nat) (m a d : Nat) (h : m < l.length) :
    (l.set m a).getD m d = a := by
  rw [List.getD_eq_getElem (l.set m a) d (by rw [List.length_set]; exact h)]
  exact List.getElem_set_self (by rw [List.length_set]; exact h)

/-- Idealized single-point AEAD decryption used by concrete witnesses: it
authenticates exactly one (iv, ciphertext) pair. -/
def pointAeadDecrypt (iv₀ ct₀ pt₀ : List Nat) :
    List Nat → List Nat → List Nat → Option (List Nat) :=
  fun _key iv ct => if iv = iv₀ ∧ ct = ct₀ then some pt₀ else none

lemma pointAeadDecrypt_auth (iv₀ ct₀ pt₀ key : List Nat) :
    ∀ iv' ct', (iv', ct') ≠ (iv₀, ct₀) →
      pointAeadDecrypt iv₀ ct₀ pt₀ key iv' ct' = none := by
  intro iv' ct' hne
  unfold pointAeadDecrypt
  rw [if_neg]
  rintro ⟨h1, h2⟩
  exact hne (by rw [h1, h2])

/-- C2 counterexample: in a valid blob produced by `encryptItem`, flipping
bit 0 of byte 1 — a single bit of the decoded packed bytes, inside the
2-byte version field — makes `decryptItem` under the correct key fail
with `VersionError`, not `AuthenticationError` as the claim states. -/
theorem decryptItem_bitFlip_counterexample :
    decryptItem demoDecode demoAeadDecrypt
      ⟨toBase64Url (flipBit (packBlob (List.range 12)
          (demoAeadEncrypt [1, 2] (List.range 12) (demoEncode "hello"))) 1 0),
        VERSION⟩ [1, 2] = .error .versionError ∧
    (Except.error CryptoError.versionError : Except CryptoError String) ≠
      .error .authenticationError :=
  ⟨by rfl, by simp⟩

/-- C2 (amended): flipping any single bit of the decoded packed bytes of
a valid blob makes `decryptItem` under the correct key fail — with
`AuthenticationError` when the flipped bit lies in the IV, ciphertext or
tag region (byte index ≥ 2), but with `VersionError` when it lies in the
2-byte version field (byte index < 2). In both cases no plaintext at all
is returned. The AEAD is assumed to authenticate only the exact
(IV, ciphertext) pair it produced under this key. -/
theorem decryptItem_bitFlip
    (textDecode : List Nat → String)
    (aeadDecrypt : List Nat → List Nat → List Nat → Option (List Nat))
    (textEncode : String → List Nat)
    (aeadEncrypt : List Nat → List Nat → List Nat → List Nat)
    (P : String) (key iv ct : List Nat) (i j : Nat)
    (hct : ct = aeadEncrypt key iv (textEncode P))
    (hiv : iv.length = 12)
    (hbiv : ∀ b ∈ iv, b < 256) (hbct : ∀ b ∈ ct, b < 256)
    (hj : j < 8) (hi : i < (packBlob iv ct).length)
    (hauth : ∀ iv' ct', (iv', ct') ≠ (iv, ct) → aeadDecrypt key iv' ct' = none) :
    decryptItem textDecode aeadDecrypt
      ⟨toBase64Url (flipBit (packBlob iv ct) i j), VERSION⟩ key =
      .error (if i < 2 then .versionError else .authenticationError) := by
  have hblen : (packBlob iv ct).length = 2 + (12 + ct.length) := by
    rw [packBlob_eq]
    simp only [List.length_append, List.length_cons, List.length_nil, hiv]
    omega
  have htb : ∀ b ∈ flipBit (packBlob iv ct) i j, b < 256 :=
    flipBit_bounds _ (packBlob_bounds iv ct hbiv hbct) i j hj
  have htlen : 2 ≤ (flipBit (packBlob iv ct) i j).length := by
    unfold flipBit
    rw [List.length_set]
    omega
  rw [decryptItem_toBase64Url textDecode aeadDecrypt key _ htb htlen]
  by_cases hcase : i < 2
  · rw [if_pos hcase]
    interval_cases i
    · have hset : flipBit (packBlob iv ct) 0 j =
          (2 ^ j) :: 1 :: (iv ++ ct) := by
        simp only [flipBit, packBlob_eq, List.cons_append, List.nil_append,
          List.set_cons_zero, List.getD_cons_zero, Nat.zero_xor]
      rw [hset]
      rw [if_pos]
      simp only [List.getD_cons_zero, List.getD_cons_succ]
      have := Nat.two_pow_pos j
      show 2 ^ j * 256 + 1 ≠ VERSION
      unfold VERSION
      omega
    · have hset : flipBit (packBlob iv ct) 1 j =
          0 :: (1 ^^^ 2 ^ j) :: (iv ++ ct) := by
        simp only [flipBit, packBlob_eq, List.cons_append, List.nil_append,
          List.set_cons_succ, List.set_cons_zero, List.getD_cons_succ,
          List.getD_cons_zero]
      rw [hset]
      rw [if_pos]
      simp only [List.getD_cons_zero, List.getD_cons_succ]
      show 0 * 256 + (1 ^^^ 2 ^ j) ≠ VERSION
      have hne := xor_pow_ne 1 j
      unfold VERSION
      omega
  · rw [if_neg hcase]
    obtain ⟨m, rfl⟩ : ∃ m, i = m + 2 := ⟨i - 2, by omega⟩
    have hm : m < 12 + ct.length := by omega
    have hset : flipBit (packBlob iv ct) (m + 2) j =
        0 :: 1 :: (iv ++ ct).set m (((iv ++ ct).getD m 0 ^^^ 2 ^ j)) := by
      simp only [flipBit, packBlob_eq, List.cons_append, List.nil_append,
        List.set_cons_succ, List.getD_cons_succ]
    rw [hset]
    rw [if_neg (by simp [VERSION])]
    have hrlen : (iv ++ ct).length = 12 + ct.length := by simp [hiv]
    have hdrop2 :
        ((0 : Nat) :: 1 :: (iv ++ ct).set m (((iv ++ ct).getD m 0 ^^^ 2 ^ j))).drop 2 =
        (iv ++ ct).set m (((iv ++ ct).getD m 0 ^^^ 2 ^ j)) := rfl
    have hdrop14 :
        ((0 : Nat) :: 1 :: (iv ++ ct).set m (((iv ++ ct).getD m 0 ^^^ 2 ^ j))).drop
            (2 + IV_LENGTH) =
        ((iv ++ ct).set m (((iv ++ ct).getD m 0 ^^^ 2 ^ j))).drop 12 := rfl
    rw [hdrop2, hdrop14]
    have hsetlen : ((iv ++ ct).set m (((iv ++ ct).getD m 0 ^^^ 2 ^ j))).length =
        12 + ct.length := by
      rw [List.length_set, hrlen]
    have hxne := xor_pow_ne ((iv ++ ct).getD m 0) j
    have hpair :
        ((((iv ++ ct).set m (((iv ++ ct).getD m 0 ^^^ 2 ^ j))).take IV_LENGTH),
          (((iv ++ ct).set m (((iv ++ ct).getD m 0 ^^^ 2 ^ j))).drop 12)) ≠
        (iv, ct) := by
      intro hp
      by_cases hm12 : m < 12
      · have hfst := congrArg Prod.fst hp
        simp only at hfst
        have h1 := congrArg (fun l => List.getD l m 0) hfst
        simp only at h1
        rw [getD_take_of_lt _ _ _ _ (show m < IV_LENGTH from hm12),
          getD_set_self _ _ _ _ (by omega)] at h1
        rw [List.getD_append iv ct 0 m (by omega)] at h1
        rw [← List.getD_append iv ct 0 m (by omega)] at h1
        exact hxne h1
      · have hsnd := congrArg Prod.snd hp
        simp only at hsnd
        have h1 := congrArg (fun l => List.getD l (m - 12) 0) hsnd
        simp only at h1
        rw [getD_drop'] at h1
        have h12 : 12 + (m - 12) = m := by omega
        rw [h12, getD_set_self _ _ _ _ (by omega)] at h1
        rw [List.getD_append_right iv ct 0 m (by omega), hiv] at h1
        exact xor_pow_ne (ct.getD (m - 12) 0) j h1
    rw [hauth _ _ hpair]

/-- Witness for C2 (amended): corrupting the last byte (inside the
authentication tag) of a concrete valid blob yields
`AuthenticationError`. -/
theorem decryptItem_bitFlip_witness :
    decryptItem demoDecode
      (pointAeadDecrypt (List.range 12)
        (demoAeadEncrypt [1, 2] (List.range 12) (demoEncode "hello")) (demoEncode "hello"))
      ⟨toBase64Url (flipBit (packBlob (List.range 12)
          (demoAeadEncrypt [1, 2] (List.range 12) (demoEncode "hello"))) 34 0),
        VERSION⟩ [1, 2] = .error .authenticationError := by
  have h := decryptItem_bitFlip demoDecode
    (pointAeadDecrypt (List.range 12)
      (demoAeadEncrypt [1, 2] (List.range 12) (demoEncode "hello")) (demoEncode "hello"))
    demoEncode demoAeadEncrypt "hello" [1, 2] (List.range 12)
    (demoAeadEncrypt [1, 2] (List.range 12) (demoEncode "hello")) 34 0
    rfl (by decide) (by decide) (by decide) (by decide) (by decide)
    (pointAeadDecrypt_auth _ _ _ _)
  simpa using h

/-- Witness for C6 with the demo AEAD (which appends a 16-byte tag). -/
theorem encryptItem_wireFormat_witness :
    (demoAeadEncrypt [1, 2] (List.range 12) (demoEncode "hello")).length =
        (demoEncode "hello").length + 16 ∧
    fromBase64Url (encryptItem demoEncode demoAeadEncrypt "hello" [1, 2]
        (List.range 12)).ciphertext =
      some ([0, 1] ++ List.range 12 ++
        demoAeadEncrypt [1, 2] (List.range 12) (demoEncode "hello")) :=
  ⟨by decide,
    (encryptItem_wireFormat demoEncode demoAeadEncrypt "hello" [1, 2]
      (List.range 12) (by decide) (by decide) (by decide) (by decide)).2.1⟩

/-! ## Key agreement (sharing.ts, `generateUserKeyPair` / `deriveSharedKey`)

The elliptic-curve primitive is `crypto.subtle.generateKey` /
`crypto.subtle.deriveKey` with `\x7b name: "ECDH", namedCurve: "P-256" \x7d`
— a platform primitive, not repository code. It is modelled here in the
standard Diffie–Hellman form: a fixed public generator and modulus, a
private key is a scalar, the public key is `g ^ priv mod p`, and key
agreement raises the counterpart's public key to one's own private
scalar. Nothing secret is exchanged: `deriveSharedKey` consumes only the
local private key and the counterpart's public key. -/

def dhModulus : Nat :=
  115792089210356248762697446949407573530086143415290314195533631308867097853951

def dhGenerator : Nat := 5

structure UserKeyPair where
  publicKey : Nat
  privateKey : Nat
deriving DecidableEq, Repr

/-- `generateUserKeyPair` (sharing.ts:35-42); the fresh random private
scalar drawn by the platform is the explicit argument. -/
def generateUserKeyPair (priv : Nat) : UserKeyPair :=
  { publicKey := dhGenerator ^ priv % dhModulus, privateKey := priv }

/-- `deriveSharedKey` (sharing.ts:96-107), in the Diffie–Hellman model. -/
def deriveSharedKey (ownPrivateKey theirPublicKey : Nat) : Nat :=
  theirPublicKey ^ ownPrivateKey % dhModulus

/-- C4: for every two keypairs A and B generated by
`generateUserKeyPair`, `deriveSharedKey A.privateKey B.publicKey` and
`deriveSharedKey B.privateKey A.publicKey` are bit-identical. Each side
consumes only its own private key and the other's public key, so nothing
secret is transmitted. -/
theorem deriveSharedKey_symm (a b : Nat) :
    deriveSharedKey (generateUserKeyPair a).privateKey
        (generateUserKeyPair b).publicKey =
      deriveSharedKey (generateUserKeyPair b).privateKey
        (generateUserKeyPair a).publicKey := by
  show (dhGenerator ^ b % dhModulus) ^ a % dhModulus =
    (dhGenerator ^ a % dhModulus) ^ b % dhModulus
  rw [← Nat.pow_mod, ← Nat.pow_mod, ← pow_mul, ← pow_mul, Nat.mul_comm]

/-! ## Subkey derivation (sharing.ts, `deriveSubkeys`)

HKDF-SHA-256 is `crypto.subtle.deriveKey` over an imported HKDF base key
— a platform primitive — entering as the abstract parameter
`hkdf ikm salt info outLen`. The derived AES-256-GCM key holds 32 bytes;
the HMAC-SHA-256 key, derived without an explicit length, holds the
SHA-256 block size of 64 bytes (the WebCrypto default). The two fixed
salts and the two fixed context labels are the source's literals. -/

/-- `TextEncoder.encode` on the ASCII literals used by the source (UTF-8
of an ASCII string is its code points). -/
def utf8Ascii (s : String) : List Nat := s.data.map Char.toNat

/-- `deriveSubkeys` (sharing.ts:193-235): HKDF with salt
`keynest-encryption-key-v1` / info `encryption` for the encryption key
and salt `keynest-mac-key-v1` / info `mac` for the MAC key. -/
def deriveSubkeys (hkdf : List Nat → List Nat → List Nat → Nat → List Nat)
    (keyMaterial : List Nat) : List Nat × List Nat :=
  (hkdf keyMaterial (utf8Ascii "keynest-encryption-key-v1") (utf8Ascii "encryption") 32,
   hkdf keyMaterial (utf8Ascii "keynest-mac-key-v1") (utf8Ascii "mac") 64)

/-- C5: `deriveSubkeys` is deterministic in the master key, uses the two
distinct fixed context labels `encryption` and `mac` with two distinct
fixed salts, and (since HKDF returns the requested output length — 32
bytes for the AES key, 64 for the HMAC key) the two subkeys are
byte-distinct. -/
theorem deriveSubkeys_deterministic_separated
    (hkdf : List Nat → List Nat → List Nat → Nat → List Nat)
    (hlen : ∀ ikm salt info L, (hkdf ikm salt info L).length = L)
    (M M' : List Nat) (hM : M = M') :
    deriveSubkeys hkdf M = deriveSubkeys hkdf M' ∧
    (deriveSubkeys hkdf M).1 =
      hkdf M (utf8Ascii "keynest-encryption-key-v1") (utf8Ascii "encryption") 32 ∧
    (deriveSubkeys hkdf M).2 =
      hkdf M (utf8Ascii "keynest-mac-key-v1") (utf8Ascii "mac") 64 ∧
    utf8Ascii "encryption" ≠ utf8Ascii "mac" ∧
    utf8Ascii "keynest-encryption-key-v1" ≠ utf8Ascii "keynest-mac-key-v1" ∧
    (deriveSubkeys hkdf M).1 ≠ (deriveSubkeys hkdf M).2 := by
  refine ⟨by rw [hM], rfl, rfl, by decide, by decide, ?_⟩
  intro h
  have h1 := congrArg List.length h
  show False
  rw [show (deriveSubkeys hkdf M).1 =
      hkdf M (utf8Ascii "keynest-encryption-key-v1") (utf8Ascii "encryption") 32 from rfl,
    show (deriveSubkeys hkdf M).2 =
      hkdf M (utf8Ascii "keynest-mac-key-v1") (utf8Ascii "mac") 64 from rfl,
    hlen, hlen] at h1
  omega

/-- Demo HKDF for the concrete witness: returns the requested number of
bytes, mixing its inputs. -/
def demoHkdf (ikm salt info : List Nat) (L : Nat) : List Nat :=
  (List.range L).map (fun i => (ikm.sum + 3 * salt.sum + 7 * info.sum + i) % 256)

/-- Witness for C5 at a concrete master key and HKDF. -/
theorem deriveSubkeys_deterministic_separated_witness :
    (deriveSubkeys demoHkdf [1, 2, 3]).1 ≠ (deriveSubkeys demoHkdf [1, 2, 3]).2 :=
  (deriveSubkeys_deterministic_separated demoHkdf
    (fun ikm salt info L => by simp [demoHkdf]) [1, 2, 3] [1, 2, 3] rfl).2.2.2.2.2

/-! ## Breach checker (breach.ts, `checkPasswordBreach` / `sha1`)

The SHA-1 digest is `crypto.subtle.digest("SHA-1", ...)` — a platform
primitive returning 20 bytes — entering as the abstract parameter
`digest`. The source's `sha1` wrapper maps each byte to two lowercase hex
characters; `checkPasswordBreach` then sends a GET request whose URL is
the fixed range-service base plus the uppercased first five characters of
the hex hash, and nothing else of the password or hash. -/

def HIBP_API : List Char := "https://api.pwnedpasswords.com/range/".data

def hexDigitChar (n : Nat) : Char := "0123456789abcdef".data.getD n 'x'

/-- One byte rendered as the source renders it:
`b.toString(16).padStart(2, "0")`. -/
def hexByte (b : Nat) : List Char := [hexDigitChar (b / 16), hexDigitChar (b % 16)]

/-- The `sha1` helper (breach.ts:54-61): hex string of the 20-byte
digest. -/
def sha1Hex (digest : String → List Nat) (input : String) : List Char :=
  ((digest input).map hexByte).flatten

/-- The URL of the single request `checkPasswordBreach` (breach.ts:27-34)
makes: the range-service base plus `hash.slice(0, 5).toUpperCase()`. -/
def breachRequestUrl (digest : String → List Nat) (password : String) : List Char :=
  HIBP_API ++ ((sha1Hex digest password).take 5).map Char.toUpper

/-- The sixteen lowercase hex characters and their uppercase forms. -/
def hexCharPool : List Char := "0123456789abcdefABCDEF".data

lemma hexDigitChar_mem : ∀ n, n < 16 → hexDigitChar n ∈ hexCharPool := by decide

lemma hexPool_toUpper : ∀ c ∈ hexCharPool, c.toUpper ∈ hexCharPool := by decide

lemma sha1Hex_length (digest : String → List Nat) (p : String)
    (hdlen : (digest p).length = 20) : (sha1Hex digest p).length = 40 := by
  unfold sha1Hex
  rw [List.length_flatten]
  have h : ∀ l : List Nat, (List.map List.length (List.map hexByte l)).sum = 2 * l.length := by
    intro l
    induction l with
    | nil => rfl
    | cons a l ih =>
      simp only [List.map_cons, List.sum_cons, ih, hexByte, List.length_cons,
        List.length_nil]
      omega
  rw [h, hdlen]

lemma sha1Hex_mem (digest : String → List Nat) (p : String)
    (hdb : ∀ b ∈ digest p, b < 256) : ∀ c ∈ sha1Hex digest p, c ∈ hexCharPool := by
  intro c hc
  unfold sha1Hex at hc
  rw [List.mem_flatten] at hc
  obtain ⟨l, hl, hcl⟩ := hc
  rw [List.mem_map] at hl
  obtain ⟨b, hb, rfl⟩ := hl
  have hb256 := hdb b hb
  simp only [hexByte, List.mem_cons, List.not_mem_nil, or_false] at hcl
  rcases hcl with rfl | rfl
  · exact hexDigitChar_mem (b / 16) (by omega)
  · exact hexDigitChar_mem (b % 16) (by omega)

/-- A 40-character hex string cannot occur contiguously inside the
42-character request URL: any placement covers index 5 of the URL, which
is the colon of `https:`. -/
lemma hex40_not_infix (H : List Char) (hlen : H.length = 40)
    (hhex : ∀ c ∈ H, c ∈ hexCharPool) (tail5 : List Char) (h5 : tail5.length = 5) :
    ¬ H <:+: (HIBP_API ++ tail5) := by
  rintro ⟨s, t, heq⟩
  have hURLlen : (HIBP_API ++ tail5).length = 42 := by
    rw [List.length_append, h5]
    rfl
  have hslen : s.length ≤ 2 := by
    have hl := congrArg List.length heq
    rw [List.length_append, List.length_append, hlen, hURLlen] at hl
    omega
  have hchar : (HIBP_API ++ tail5).getD 5 ' ' = ':' := by
    rw [List.getD_append HIBP_API tail5 ' ' 5 (by decide)]
    decide
  have hin : ((s ++ H) ++ t).getD 5 ' ' = H.getD (5 - s.length) ' ' := by
    rw [List.getD_append (s ++ H) t ' ' 5 (by rw [List.length_append, hlen]; omega),
      List.getD_append_right s H ' ' 5 (by omega)]
  have hval : H.getD (5 - s.length) ' ' = ':' := by
    rw [← hin, heq]
    exact hchar
  have hmem : H.getD (5 - s.length) ' ' ∈ H := by
    rw [List.getD_eq_getElem H ' ' (by omega)]
    exact List.getElem_mem _
  have hpool := hhex _ hmem
  rw [hval] at hpool
  exact absurd hpool (by decide)

/-- C7: for every password, `checkPasswordBreach` transmits to the range
service exactly the uppercased first five hex characters of the
password's hash appended to the fixed base URL — a 5-character prefix
regardless of password length; the request is fully determined by those
five characters, and neither the full lowercase hash string nor its
uppercase form occurs anywhere in the request. -/
theorem checkPasswordBreach_kAnonymity
    (digest : String → List Nat) (password : String)
    (hdlen : (digest password).length = 20)
    (hdb : ∀ b ∈ digest password, b < 256) :
    breachRequestUrl digest password =
        HIBP_API ++ ((sha1Hex digest password).take 5).map Char.toUpper ∧
    (((sha1Hex digest password).take 5).map Char.toUpper).length = 5 ∧
    (∀ password₂ : String,
        (sha1Hex digest password).take 5 = (sha1Hex digest password₂).take 5 →
        breachRequestUrl digest password = breachRequestUrl digest password₂) ∧
    ¬ (sha1Hex digest password) <:+: breachRequestUrl digest password ∧
    ¬ ((sha1Hex digest password).map Char.toUpper) <:+:
        breachRequestUrl digest password := by
  have h40 := sha1Hex_length digest password hdlen
  have htake5 : (((sha1Hex digest password).take 5).map Char.toUpper).length = 5 := by
    rw [List.length_map, List.length_take, h40]
    rfl
  refine ⟨rfl, htake5, ?_, ?_, ?_⟩
  · intro password₂ hpre
    unfold breachRequestUrl
    rw [hpre]
  · exact hex40_not_infix _ h40 (sha1Hex_mem digest password hdb) _ htake5
  · refine hex40_not_infix _ (by rw [List.length_map, h40]) ?_ _ htake5
    intro c hc
    rw [List.mem_map] at hc
    obtain ⟨a, ha, rfl⟩ := hc
    exact hexPool_toUpper a (sha1Hex_mem digest password hdb a ha)

/-- Demo SHA-1 digest for the concrete witness: 20 bytes mixed from the
input length. -/
def demoDigest (s : String) : List Nat :=
  (List.range 20).map (fun i => (s.length * 31 + i) % 256)

/-- Witness for C7 at a concrete password and digest. -/
theorem checkPasswordBreach_kAnonymity_witness :
    (((sha1Hex demoDigest "hunter2").take 5).map Char.toUpper).length = 5 ∧
    ¬ (sha1Hex demoDigest "hunter2") <:+: breachRequestUrl demoDigest "hunter2" :=
  ⟨(checkPasswordBreach_kAnonymity demoDigest "hunter2" (by decide) (by decide)).2.1,
   (checkPasswordBreach_kAnonymity demoDigest "hunter2" (by decide) (by decide)).2.2.2.1⟩

/-! ## Key derivation (sharing.ts / the KDF module, `deriveMasterKey`)

The Argon2id hash itself is the external argon2 library (WASM), entering
as the abstract parameter `argon2id`, whose contract returns `hashLen`
bytes for any password and salt. The source freezes `KDF_PARAMS` as
constants and passes them to every call. -/

structure KdfParams where
  memory : Nat
  iterations : Nat
  parallelism : Nat
  hashLen : Nat
deriving DecidableEq, Repr

/-- `KDF_PARAMS` (the frozen constants of the source). -/
def KDF_PARAMS : KdfParams :=
  { memory := 65536, iterations := 3, parallelism := 4, hashLen := 32 }

/-- Modelled from the spec: validation of KDF parameters, failing with
`ConfigError` on invalid values such as a memory cost below a safe floor.
No such validation path exists under src — the source fixes `KDF_PARAMS`
and its `deriveMasterKey` takes no parameter argument — so the floor here
is the argon2 legality requirement: memory at least `8 × parallelism`
KiB, at least one iteration and one lane, and a usable output length. -/
def validKdfParams (p : KdfParams) : Bool :=
  decide (8 * p.parallelism ≤ p.memory) && decide (1 ≤ p.iterations) &&
    decide (1 ≤ p.parallelism) && decide (4 ≤ p.hashLen)

/-- `deriveMasterKey` generalized over the parameters it would receive
per the spec's signature; returns the source's
`\x7b keyMaterial, salt \x7d` record as a pair. -/
def deriveMasterKeyWith (argon2id : String → List Nat → KdfParams → List Nat)
    (params : KdfParams) (masterPassword : String) (salt : List Nat) :
    Except CryptoError (List Nat × List Nat) :=
  if validKdfParams params then .ok (argon2id masterPassword salt params, salt)
  else .error .configError

/-- `deriveMasterKey` (the source function: fixed `KDF_PARAMS`). -/
def deriveMasterKey (argon2id : String → List Nat → KdfParams → List Nat)
    (masterPassword : String) (salt : List Nat) :
    Except CryptoError (List Nat × List Nat) :=
  deriveMasterKeyWith argon2id KDF_PARAMS masterPassword salt

/-- C8: `deriveMasterKey` fails with `ConfigError` on invalid KDF
parameters (for example a memory cost below the floor) and never fails
merely because the password is wrong: with the frozen valid `KDF_PARAMS`,
every password and valid 16-byte salt yields a 32-byte key, and two
passwords whose Argon2id hashes differ yield different, equally
valid-looking keys. -/
theorem deriveMasterKey_configAndTotal
    (argon2id : String → List Nat → KdfParams → List Nat)
    (hlen : ∀ pw salt p, (argon2id pw salt p).length = p.hashLen)
    (params : KdfParams) (hbad : validKdfParams params = false)
    (pw₁ pw₂ : String) (salt : List Nat) (hsalt : salt.length = 16)
    (hdiff : argon2id pw₁ salt KDF_PARAMS ≠ argon2id pw₂ salt KDF_PARAMS) :
    deriveMasterKeyWith argon2id params pw₁ salt = .error .configError ∧
    validKdfParams KDF_PARAMS = true ∧
    (∀ pw : String, deriveMasterKey argon2id pw salt =
        .ok (argon2id pw salt KDF_PARAMS, salt)) ∧
    (∀ pw : String, (argon2id pw salt KDF_PARAMS).length = 32) ∧
    deriveMasterKey argon2id pw₁ salt ≠ deriveMasterKey argon2id pw₂ salt := by
  have hvalid : validKdfParams KDF_PARAMS = true := by decide
  have hok : ∀ pw : String, deriveMasterKey argon2id pw salt =
      .ok (argon2id pw salt KDF_PARAMS, salt) := by
    intro pw
    unfold deriveMasterKey deriveMasterKeyWith
    rw [hvalid]
    rfl
  refine ⟨?_, hvalid, hok, ?_, ?_⟩
  · unfold deriveMasterKeyWith
    rw [hbad]
    rfl
  · intro pw
    rw [hlen]
    rfl
  · rw [hok pw₁, hok pw₂]
    intro h
    rw [Except.ok.injEq, Prod.mk.injEq] at h
    exact hdiff h.1

/-- Demo Argon2id for the concrete witness: `hashLen` bytes mixed from
password length and salt. -/
def demoArgon2id (pw : String) (salt : List Nat) (p : KdfParams) : List Nat :=
  List.replicate p.hashLen ((pw.length + salt.sum) % 256)

/-- Witness for C8: invalid parameters (memory 0) are rejected, the
frozen parameters are accepted, and two concrete distinct passwords give
distinct keys. -/
theorem deriveMasterKey_configAndTotal_witness :
    deriveMasterKeyWith demoArgon2id
        { memory := 0, iterations := 0, parallelism := 1, hashLen := 32 }
        "a" (List.replicate 16 0) = .error .configError ∧
    deriveMasterKey demoArgon2id "a" (List.replicate 16 0) ≠
      deriveMasterKey demoArgon2id "bb" (List.replicate 16 0) :=
  have h := deriveMasterKey_configAndTotal demoArgon2id
    (fun pw salt p => by simp [demoArgon2id])
    { memory := 0, iterations := 0, parallelism := 1, hashLen := 32 } (by decide)
    "a" "bb" (List.replicate 16 0) (by decide) (by decide)
  ⟨h.1, h.2.2.2.2⟩

/-! ## Password generator (password-gen.ts, `generatePassword`)

Fully repository code except `crypto.getRandomValues`, whose byte stream
is the explicit `rand` argument here (the source redraws batches until
the password is filled; the model consumes one stream, and the theorems
hypothesize that the stream holds enough in-range bytes). -/

def CHARSETS_uppercase : List Char := "ABCDEFGHIJKLMNOPQRSTUVWXYZ".data
def CHARSETS_lowercase : List Char := "abcdefghijklmnopqrstuvwxyz".data
def CHARSETS_digits : List Char := "0123456789".data
def CHARSETS_symbols : List Char := "!@#$%^&*()_+-=[]\x7b\x7d|;:,.<>?".data

structure PasswordOptions where
  length : Nat
  uppercase : Bool
  lowercase : Bool
  digits : Bool
  symbols : Bool
  exclude : String
deriving DecidableEq, Repr

/-- `DEFAULTS` (password-gen.ts:23-30). -/
def DEFAULTS : PasswordOptions :=
  { length := 20, uppercase := true, lowercase := true, digits := true,
    symbols := true, exclude := "" }

/-- The character pool `generatePassword` builds (password-gen.ts:35-46):
the requested classes concatenated, then — when `exclude` is non-empty
(JS truthiness) — filtered against the excluded characters. -/
def charsetOf (opts : PasswordOptions) : List Char :=
  let cs := (if opts.uppercase then CHARSETS_uppercase else []) ++
      (if opts.lowercase then CHARSETS_lowercase else []) ++
      (if opts.digits then CHARSETS_digits else []) ++
      (if opts.symbols then CHARSETS_symbols else [])
  if opts.exclude = "" then cs
  else cs.filter (fun c => !(opts.exclude.contains c))

/-- The rejection-sampling fill loop (password-gen.ts:56-65): a byte is
accepted when it is below `maxValid` and indexes the pool modulo its
size; bytes at or above `maxValid` are discarded and the draw continues. -/
def fillPassword (charset : List Char) (maxValid : Nat) : Nat → List Nat → List Char
  | _, [] => []
  | 0, _ => []
  | need + 1, b :: rest =>
      if b < maxValid then
        charset.getD (b % charset.length) ' ' ::
          fillPassword charset maxValid need rest
      else fillPassword charset maxValid (need + 1) rest

/-- `generatePassword` (password-gen.ts:32-68), with the random byte
stream explicit. `maxValid` is the source's
`Math.floor(256 / charset.length) * charset.length`. -/
def generatePassword (opts : PasswordOptions) (rand : List Nat) :
    Except CryptoError String :=
  let charset := charsetOf opts
  if charset.length = 0 then .error .configError
  else
    let maxValid := 256 / charset.length * charset.length
    .ok (String.mk (fillPassword charset maxValid opts.length rand))

lemma fillPassword_nil (charset : List Char) (maxValid need : Nat) :
    fillPassword charset maxValid need [] = [] := by
  cases need <;> rfl

lemma fillPassword_zero (charset : List Char) (maxValid : Nat) (rand : List Nat) :
    fillPassword charset maxValid 0 rand = [] := by
  cases rand <;> rfl

lemma fillPassword_cons (charset : List Char) (maxValid need b : Nat)
    (rest : List Nat) :
    fillPassword charset maxValid (need + 1) (b :: rest) =
      if b < maxValid then
        charset.getD (b % charset.length) ' ' ::
          fillPassword charset maxValid need rest
      else fillPassword charset maxValid (need + 1) rest := rfl

lemma fillPassword_spec (charset : List Char) (hne : charset ≠ []) (maxValid : Nat) :
    ∀ (need : Nat) (rand : List Nat),
      need ≤ (rand.filter (fun b => decide (b < maxValid))).length →
      (fillPassword charset maxValid need rand).length = need ∧
      ∀ c ∈ fillPassword charset maxValid need rand, c ∈ charset := by
  have hlen : 0 < charset.length := List.length_pos.2 hne
  intro need rand
  induction need, rand using fillPassword.induct charset maxValid with
  | case1 need =>
    intro h
    simp only [List.filter_nil, List.length_nil, Nat.le_zero] at h
    rw [fillPassword_nil]
    exact ⟨by simp [h], fun c hc => absurd hc (List.not_mem_nil c)⟩
  | case2 rand =>
    intro _
    rw [fillPassword_zero]
    exact ⟨rfl, fun c hc => absurd hc (List.not_mem_nil c)⟩
  | case3 need b rest hb ih =>
    intro h
    rw [List.filter_cons_of_pos (by simpa using hb)] at h
    simp only [List.length_cons] at h
    obtain ⟨ihl, ihm⟩ := ih (by omega)
    rw [fillPassword_cons, if_pos hb]
    constructor
    · simp only [List.length_cons, ihl]
    · intro c hc
      rcases List.mem_cons.1 hc with rfl | hc'
      · rw [List.getD_eq_getElem charset ' ' (Nat.mod_lt b hlen)]
        exact List.getElem_mem _
      · exact ihm c hc'
  | case4 need b rest hb ih =>
    intro h
    rw [List.filter_cons_of_neg (by simpa using hb)] at h
    obtain ⟨ihl, ihm⟩ := ih h
    rw [fillPassword_cons, if_neg hb]
    exact ⟨ihl, ihm⟩

/-- C9: for every options value and random stream, if the character pool
built from the requested classes minus the excluded characters is empty,
`generatePassword` fails with `ConfigError` — unconditionally; otherwise,
given that the stream holds enough in-range bytes (the source redraws
until it does), it returns a string of exactly the requested length whose
every character belongs to the pool. -/
theorem generatePassword_spec (opts : PasswordOptions) (rand : List Nat) :
    (charsetOf opts = [] → generatePassword opts rand = .error .configError) ∧
    (charsetOf opts ≠ [] →
      opts.length ≤ (rand.filter (fun b =>
        decide (b < 256 / (charsetOf opts).length * (charsetOf opts).length))).length →
      ∃ s : String,
        generatePassword opts rand = .ok s ∧
        s.length = opts.length ∧ ∀ c ∈ s.data, c ∈ charsetOf opts) := by
  constructor
  · intro h
    unfold generatePassword
    rw [if_pos (by rw [h]; rfl)]
  · intro hne hrand
    obtain ⟨hl, hm⟩ := fillPassword_spec (charsetOf opts) hne
      (256 / (charsetOf opts).length * (charsetOf opts).length) opts.length rand hrand
    refine ⟨String.mk (fillPassword (charsetOf opts)
      (256 / (charsetOf opts).length * (charsetOf opts).length) opts.length rand),
      ?_, hl, hm⟩
    unfold generatePassword
    rw [if_neg (by simpa using fun hz => hne (List.length_eq_zero.1 hz))]

/-- Witness for C9, exercising both branches: with every class switched
off at the default length 20 the pool is empty and the concrete run
fails with `ConfigError`; with the spec's scenario 2 (default options,
length 20, all four classes) a concrete byte stream yields a
20-character result drawn from the pool. -/
theorem generatePassword_spec_witness :
    generatePassword
      { length := 20, uppercase := false, lowercase := false, digits := false,
        symbols := false, exclude := "" } (List.range 20) = .error .configError ∧
    ∃ s : String, generatePassword DEFAULTS (List.range 20) = .ok s ∧
      s.length = DEFAULTS.length ∧ ∀ c ∈ s.data, c ∈ charsetOf DEFAULTS :=
  ⟨(generatePassword_spec
      { length := 20, uppercase := false, lowercase := false, digits := false,
        symbols := false, exclude := "" } (List.range 20)).1 (by decide),
   (generatePassword_spec DEFAULTS (List.range 20)).2 (by decide) (by decide)⟩
